import Mathlib

/-! Shallow embedding of the go-tax repository core: the word/sentence/numeral
dispenser (package dispenser), the statement record with fixed-point dollar
amounts (package statement), and the label-driven statement extractor
(package pdf).  Go methods that mutate the receiver become state-passing
functions; a Go runtime panic (out-of-range slice or string indexing) is
modelled by Option, with none standing for the panic. -/

namespace GoTax

/-- Go strings are modelled as lists of characters.  The trailing-space test
in the source reads the last byte; on decoded text this coincides with the
last character, because a UTF-8 continuation byte is never 0x20. -/
abbrev Str := List Char

/-- Go byte access s[len(s)-1] as used by the trailing-space tests: none on
the empty string (index out of range panic in Go). -/
def lastChar (s : Str) : Option Char :=
  s.getLast?

/-- Whitespace recognised by strings.TrimSpace (unicode.IsSpace); the exotic
Unicode White_Space code points beyond U+00A0 never occur in statement text
and are omitted. -/
def isSpaceChar (c : Char) : Bool :=
  c = ' ' || c = '\t' || c = '\n' || c = '\u000B' || c = '\u000C' ||
    c = '\r' || c = '\u0085' || c = ' '

/-- strings.TrimSpace: drop whitespace from both ends. -/
def trimSpace (s : Str) : Str :=
  ((s.dropWhile isSpaceChar).reverse.dropWhile isSpaceChar).reverse

/-- strings.Replace(str, ",", "", -1): remove every comma. -/
def removeCommas (s : Str) : Str :=
  s.filter (fun c => c ≠ ',')

/-- strings.TrimLeft(s, "$"): drop leading dollar signs. -/
def trimLeadingDollars (s : Str) : Str :=
  s.dropWhile (fun c => c = '$')

def digitVal (c : Char) : Option Nat :=
  if '0' ≤ c ∧ c ≤ '9' then some (c.toNat - 48) else none

/-- Split a maximal run of leading decimal digits from the rest. -/
def takeDigits : Str → (List Nat × Str)
  | [] => ([], [])
  | c :: rest =>
    match digitVal c with
    | some d => let p := takeDigits rest; (d :: p.1, p.2)
    | none => ([], c :: rest)

def natOfDigits (ds : List Nat) : Nat :=
  ds.foldl (fun a d => a * 10 + d) 0

/-- Optional sign: returns (isNegative, rest). -/
def parseSign : Str → (Bool × Str)
  | '-' :: r => (true, r)
  | '+' :: r => (false, r)
  | s => (false, s)

/-- Decimal syntax of strconv.ParseFloat(clean, 64) as called by getNumeral:
optional sign, digits with an optional fraction part (at least one digit in
the mantissa), optional decimal exponent, and nothing left over.  The value
is kept as an exact rational instead of being rounded to binary64; the
hexadecimal, inf/nan and digit-separating-underscore forms also accepted by
ParseFloat do not occur in statement text and are omitted. -/
def parseFloat (s : Str) : Option Rat :=
  let p0 := parseSign s
  let p1 := takeDigits p0.2
  let pf : Option (List Nat) × Str :=
    match p1.2 with
    | '.' :: r => let p2 := takeDigits r; (some p2.1, p2.2)
    | other => (none, other)
  if p1.1 = [] ∧ (pf.1 = none ∨ pf.1 = some []) then none
  else
    let frac := pf.1.getD []
    let mant : Rat :=
      (natOfDigits p1.1 : Rat) + (natOfDigits frac : Rat) / (10 : Rat) ^ frac.length
    match pf.2 with
    | [] => some (if p0.1 then -mant else mant)
    | 'e' :: r =>
      let q0 := parseSign r
      let q1 := takeDigits q0.2
      if q1.1 = [] ∨ q1.2 ≠ [] then none
      else
        let m2 := if q0.1 then mant / (10 : Rat) ^ natOfDigits q1.1
                  else mant * (10 : Rat) ^ natOfDigits q1.1
        some (if p0.1 then -m2 else m2)
    | 'E' :: r =>
      let q0 := parseSign r
      let q1 := takeDigits q0.2
      if q1.1 = [] ∨ q1.2 ≠ [] then none
      else
        let m2 := if q0.1 then mant / (10 : Rat) ^ natOfDigits q1.1
                  else mant * (10 : Rat) ^ natOfDigits q1.1
        some (if p0.1 then -m2 else m2)
    | _ => none

/-- func getNumeral(str string) (float64, bool) (part_000 lines 33-42).
none models ok = false. -/
def getNumeral (s : Str) : Option Rat :=
  parseFloat (trimLeadingDollars (trimSpace (removeCommas s)))

/-- struct Dispenser (part_000 lines 11-15): cursor index i (a Go int, so it
may go negative), the continueNextSentence flag, and the fragment array. -/
structure Dispenser where
  i : Int
  continueNextSentence : Bool
  str : List Str
deriving Repr, DecidableEq

def strLen (d : Dispenser) : Int :=
  (d.str.length : Int)

/-- Go slice indexing l[k]: some element when 0 <= k < len, none models the
index-out-of-range panic (also for negative k). -/
def fragAt (l : List Str) (k : Int) : Option Str :=
  if h : 0 ≤ k ∧ k.toNat < l.length then some (l.get ⟨k.toNat, h.2⟩) else none

/-- func NewDispenser (part_000 lines 18-20). -/
def NewDispenser (str : List Str) : Dispenser :=
  ⟨0, false, str⟩

/-- strings.Split(str, " "). -/
def splitOnSpace : Str → List Str
  | [] => [[]]
  | c :: rest =>
    let r := splitOnSpace rest
    if c = ' ' then [] :: r
    else
      match r with
      | [] => [[c]]
      | w :: ws => (c :: w) :: ws

/-- Drop the final character of the final string (lastWord[:len(lastWord)-1]
after a space was appended to every word, so the string is never empty). -/
def unSpaceLast : List Str → List Str
  | [] => []
  | [w] => [w.dropLast]
  | w :: ws => w :: unSpaceLast ws

/-- func NewDispenserFromSentence (part_000 lines 23-31): split on single
spaces, append a space to every word, remove the appended space from the
last word. -/
def NewDispenserFromSentence (s : Str) : Dispenser :=
  ⟨0, false, unSpaceLast ((splitOnSpace s).map (fun w => w ++ [' ']))⟩

/-- func (d *Dispenser) LastNWords(n int) string (part_000 lines 54-60). -/
def LastNWords (d : Dispenser) (n : Int) : Option Str :=
  if d.i - n - 1 < 0 ∨ strLen d ≤ d.i - n - 1 then some []
  else fragAt d.str (d.i - 2)

/-- func (d *Dispenser) NextWord() bool (part_000 lines 64-85). -/
def NextWord (d : Dispenser) : Option (Bool × Dispenser) :=
  if strLen d ≤ d.i then some (false, d)
  else if d.continueNextSentence = false then some (false, d)
  else
    (fragAt d.str d.i).bind fun f =>
      if (getNumeral f).isSome then some (false, d)
      else
        (lastChar f).bind fun c =>
          let cont := if c ≠ ' ' ∨ d.i + 1 = strLen d then false
                      else d.continueNextSentence
          some (true, { d with i := d.i + 1, continueNextSentence := cont })

/-- func (d *Dispenser) Word() string (part_000 lines 88-94). -/
def Word (d : Dispenser) : Option Str :=
  if strLen d < d.i ∨ d.i = 0 then some []
  else (fragAt d.str (d.i - 1)).map trimSpace

/-- Loop body of NextSentence (part_000 lines 106-111): scan forward past
the fragments of the open sentence; returns the final cursor value.  Each
iteration moves the cursor right, so fuel = length + 1 never runs out from
an in-range start (lemma nextSentenceScan_some). -/
def nextSentenceScan (str : List Str) : Nat → Int → Option Int
  | 0, _ => none
  | fuel + 1, i =>
    if (str.length : Int) ≤ i then some i
    else
      (fragAt str i).bind fun f =>
        (lastChar f).bind fun c =>
          if c ≠ ' ' then some (i + 1)
          else nextSentenceScan str fuel (i + 1)

/-- func (d *Dispenser) NextSentence() bool (part_000 lines 98-122). -/
def NextSentence (d : Dispenser) : Option (Bool × Dispenser) :=
  if strLen d ≤ d.i then some (false, d)
  else if d.continueNextSentence = false then
    some (true, { d with continueNextSentence := true })
  else
    (nextSentenceScan d.str (d.str.length + 1) d.i).bind fun j =>
      if j + 1 = strLen d then some (false, { d with i := j + 1 })
      else if strLen d ≤ j then some (false, { d with i := j })
      else some (true, { d with i := j })

/-- Guard of the first branch of StartOfSentence (part_000 lines 126-128),
with Go short-circuit evaluation: d.str[d.i-1] is read only when the test on
d.str[d.i] already passed. -/
def startCond (d : Dispenser) : Option Bool :=
  if 0 < d.i ∧ d.i < strLen d then
    (fragAt d.str d.i).bind fun f1 =>
      (lastChar f1).bind fun c1 =>
        if c1 ≠ ' ' then
          (fragAt d.str (d.i - 1)).bind fun f0 =>
            (lastChar f0).bind fun c0 => some (decide (c0 ≠ ' '))
        else some false
  else some false

/-- Backward loop of StartOfSentence (part_000 lines 158-163); returns the
final cursor value. -/
def startScan (str : List Str) : Nat → Int → Option Int
  | 0, _ => none
  | fuel + 1, i =>
    if i ≤ 0 then some i
    else
      (fragAt str i).bind fun f =>
        (lastChar f).bind fun c =>
          if c ≠ ' ' then some (i + 1)
          else startScan str fuel (i - 1)

/-- func (d *Dispenser) StartOfSentence() (part_000 lines 125-164). -/
def StartOfSentence (d : Dispenser) : Option Dispenser :=
  (startCond d).bind fun b =>
    if b then
      if d.continueNextSentence = false then
        some { d with i := d.i - 1, continueNextSentence := true }
      else some d
    else
      if d.i = 0 then some { d with continueNextSentence := true }
      else if d.str.length = 1 then some { d with i := 0 }
      else
        let i1 := if d.i = strLen d ∨ d.continueNextSentence = false
                  then d.i - 2 else d.i
        let i2 := if i1 < 0 then 0 else i1
        (startScan d.str (d.str.length + 2) i2).bind fun j =>
          some { d with i := j, continueNextSentence := true }

/-- func (d *Dispenser) LastSentence() (part_000 lines 167-182). -/
def LastSentence (d : Dispenser) : Option Dispenser :=
  (StartOfSentence d).bind fun d1 =>
    (fragAt d1.str d1.i).bind fun f =>
      (lastChar f).bind fun c =>
        if c ≠ ' ' then some { d1 with i := d1.i - 1 }
        else
          if d1.i - 2 ≤ 0 then some { d1 with i := 1 }
          else StartOfSentence { d1 with i := d1.i - 2 }

/-- Loop of DumpSentence (part_000 lines 192-198): append fragments starting
at the cursor, stopping one past the first fragment without a trailing
space; returns the accumulated text and the final cursor. -/
def dumpLoop (str : List Str) : Nat → Int → Str → Option (Str × Int)
  | 0, _, _ => none
  | fuel + 1, i, acc =>
    if (str.length : Int) ≤ i then some (acc, i)
    else
      (fragAt str i).bind fun f =>
        (lastChar f).bind fun c =>
          if c ≠ ' ' then some (acc ++ f, i + 1)
          else dumpLoop str fuel (i + 1) (acc ++ f)

/-- func (d *Dispenser) DumpSentence() string (part_000 lines 186-203). -/
def DumpSentence (d : Dispenser) : Option (Str × Dispenser) :=
  if d.continueNextSentence = false then some ([], d)
  else
    (dumpLoop d.str (d.str.length + 1) d.i []).bind fun p =>
      some (p.1, { d with i := p.2, continueNextSentence := false })

/-- Loop of DumpNSentences (part_000 lines 211-217), k remaining passes of
NextSentence plus DumpSentence. -/
def dumpNLoop : Nat → Dispenser → Option (List Str × Dispenser)
  | 0, d => some ([], d)
  | k + 1, d =>
    (NextSentence d).bind fun r1 =>
      if r1.1 then
        (DumpSentence r1.2).bind fun r2 =>
          (dumpNLoop k r2.2).bind fun r3 =>
            some (r2.1 :: r3.1, r3.2)
      else some ([], r1.2)

/-- func (d *Dispenser) DumpNSentences(n int) []string (part_000 lines
206-223): dump up to n sentences, then restore the saved cursor and flag. -/
def DumpNSentences (n : Nat) (d : Dispenser) : Option (List Str × Dispenser) :=
  (DumpSentence d).bind fun r1 =>
    (dumpNLoop (n - 1) r1.2).bind fun r2 =>
      some (r1.1 :: r2.1,
        { r2.2 with i := d.i, continueNextSentence := d.continueNextSentence })

/-- func (d *Dispenser) AtEndOfSentence() bool (part_000 lines 227-237). -/
def AtEndOfSentence (d : Dispenser) : Bool :=
  if d.continueNextSentence = false then true
  else if strLen d ≤ d.i then true
  else false

/-- func (d *Dispenser) NextNumeral() bool (part_000 lines 241-262). -/
def NextNumeral (d : Dispenser) : Option (Bool × Dispenser) :=
  if strLen d ≤ d.i then some (false, d)
  else if d.continueNextSentence = false then some (false, d)
  else
    (fragAt d.str d.i).bind fun f =>
      if (getNumeral f).isSome then
        (lastChar f).bind fun c =>
          let cont := if c ≠ ' ' then false else d.continueNextSentence
          some (true, { d with i := d.i + 1, continueNextSentence := cont })
      else some (false, d)

/-- func (d *Dispenser) Position() int (part_000 lines 265-267). -/
def Position (d : Dispenser) : Int :=
  d.i

/-- Loop of JumpNextNumeral (part_000 lines 275-283).  On a found numeral the
cursor steps back one and the sentence is reopened (break); otherwise a word
is consumed and the loop re-checks AtEndOfSentence.  Each iteration either
stops or moves the cursor right, so fuel = length + 2 never runs out from an
in-range start (lemma jumpLoop_some). -/
def jumpLoop : Nat → Dispenser → Option Dispenser
  | 0, _ => none
  | fuel + 1, d =>
    if AtEndOfSentence d then some d
    else
      (NextNumeral d).bind fun r =>
        if r.1 then
          some { r.2 with i := r.2.i - 1, continueNextSentence := true }
        else
          (NextWord d).bind fun r2 => jumpLoop fuel r2.2

/-- func (d *Dispenser) JumpNextNumeral() bool (part_000 lines 272-293). -/
def JumpNextNumeral (d : Dispenser) : Option (Bool × Dispenser) :=
  (jumpLoop (d.str.length + 2) d).bind fun d1 =>
    (NextNumeral d1).bind fun r =>
      if r.1 = false ∧ AtEndOfSentence r.2 then
        some (false, { r.2 with i := d.i })
      else
        some (true, { r.2 with continueNextSentence := true })

/-- func (d *Dispenser) Numeral() float64 (part_000 lines 298-309). -/
def Numeral (d : Dispenser) : Option Rat :=
  if strLen d < d.i ∨ d.i = 0 then some 0
  else
    (fragAt d.str (d.i - 1)).bind fun f =>
      some ((getNumeral f).getD 0)

/-- struct Dollar (statement.go lines 8-11): an exact cent count plus an
explicit presence flag. -/
structure Dollar where
  Cents : Int
  HasValue : Bool
deriving Repr, DecidableEq

/-- Go conversion int64(x) for a float x: truncation toward zero. -/
def goTrunc (q : Rat) : Int :=
  if q < 0 then -(-q).floor else q.floor

/-- Round x to the nearest integer, ties to even. -/
def roundHalfEvenQ (x : Rat) : Int :=
  if x - (x.floor : Rat) < 1 / 2 then x.floor
  else if (1 : Rat) / 2 < x - (x.floor : Rat) then x.floor + 1
  else if x.floor % 2 = 0 then x.floor else x.floor + 1

/-- Structural binary logarithm (Nat.log2 is defined by well-founded
recursion, which the kernel will not reduce; the fuel n suffices since the
argument halves each step). -/
def log2Fuel : Nat → Nat → Nat
  | 0, _ => 0
  | fuel + 1, n => if 2 ≤ n then log2Fuel fuel (n / 2) + 1 else 0

def natLog2 (n : Nat) : Nat :=
  log2Fuel n n

/-- Round a nonnegative rational to the nearest IEEE binary64 value (round
to nearest, ties to even), returned as an exact rational.  The exponent is
derived from the integer part, so the rounding grid is exact for 1 <= q (the
binary64 normal range below overflow) and for q = 0; arguments inside (0, 1)
are handled on the 2^-52 grid, which is exact whenever the value is already
a multiple of 2^-52 — every computation below stays in these ranges. -/
def roundB64Pos (q : Rat) : Rat :=
  let e := natLog2 q.floor.toNat
  if e ≤ 52 then
    (roundHalfEvenQ (q * (2 : Rat) ^ (52 - e)) : Rat) / (2 : Rat) ^ (52 - e)
  else
    (roundHalfEvenQ (q / (2 : Rat) ^ (e - 52)) : Rat) * (2 : Rat) ^ (e - 52)

/-- Binary64 rounding of a rational of either sign (IEEE round to nearest,
ties to even, which is symmetric under negation). -/
def roundB64 (q : Rat) : Rat :=
  if q < 0 then -roundB64Pos (-q) else roundB64Pos q

/-- func NewDollar(number float64) Dollar (statement.go lines 13-15):
int64(number*100 + 0.5).  The expression performs two float64 operations,
each rounding its result to binary64; they are modelled by exact rational
arithmetic followed by roundB64 on each intermediate result, with the
parameter standing for the exact value of the float64 argument.  The final
int64 conversion truncates toward zero. -/
def NewDollar (number : Rat) : Dollar :=
  ⟨goTrunc (roundB64 (roundB64 (number * 100) + 1 / 2)), true⟩

/-- Digits of the decimal rendering strconv.FormatFloat(float64(c)/100, 'f',
2, 64) used by Dollar.MarshalJSON: sign, integer part, a dot and two cent
digits.  The float64 division and decimal re-rounding are exact at this
scale, so the rendering is modelled as exact decimal output. -/
def formatCents (c : Int) : Str :=
  let a := c.natAbs
  (if c < 0 then ['-'] else []) ++ Nat.toDigits 10 (a / 100) ++ ['.'] ++
    (if a % 100 < 10 then '0' :: Nat.toDigits 10 (a % 100)
     else Nat.toDigits 10 (a % 100))

/-- func (d Dollar) MarshalJSON() (statement.go lines 17-23). -/
def marshalDollar (d : Dollar) : Str :=
  if d.HasValue = false then "null".toList
  else formatCents d.Cents

/-- ASCII lowering; strings.ToLower is full Unicode but every label phrase
and every guard in the source compares against ASCII text. -/
def toLowerChar (c : Char) : Char :=
  if 'A' ≤ c ∧ c ≤ 'Z' then Char.ofNat (c.toNat + 32) else c

def toUpperChar (c : Char) : Char :=
  if 'a' ≤ c ∧ c ≤ 'z' then Char.ofNat (c.toNat - 32) else c

def lowerStr (s : Str) : Str :=
  s.map toLowerChar

/-- strings.Contains: substring test. -/
def containsSub (s pat : Str) : Bool :=
  s.tails.any (fun t => pat.isPrefixOf t)

/-- A calendar date; time.Time in the source is only ever a parsed
"02 January 2006" date, and its zero value marks an unset field. -/
structure GoDate where
  day : Nat
  month : Nat
  year : Nat
deriving Repr, DecidableEq

def monthNames : List (Str × Nat) :=
  [("January".toList, 1), ("February".toList, 2), ("March".toList, 3),
   ("April".toList, 4), ("May".toList, 5), ("June".toList, 6),
   ("July".toList, 7), ("August".toList, 8), ("September".toList, 9),
   ("October".toList, 10), ("November".toList, 11), ("December".toList, 12)]

/-- time.Parse("02 January 2006", s): one or two day digits, a space, a full
English month name, a space, four year digits.  Modelled from the layout
string; time is standard library code outside this repository. -/
def parseDate (s : Str) : Option GoDate :=
  let pd := takeDigits s
  if pd.1 = [] ∨ 2 < pd.1.length then none
  else
    match pd.2 with
    | ' ' :: r =>
      match monthNames.find? (fun m => m.1.isPrefixOf r) with
      | none => none
      | some m =>
        match r.drop m.1.length with
        | ' ' :: r2 =>
          let py := takeDigits r2
          if py.1.length = 4 ∧ py.2 = [] then
            some ⟨natOfDigits pd.1, m.2, natOfDigits py.1⟩
          else none
        | _ => none
    | _ => none

/-- struct Statement (statement.go lines 25-38).  PaymentDate uses none for
the time.Time zero value. -/
structure Statement where
  Entity : Str
  ASXCode : Str
  AccountHolders : List Str
  PaymentDate : Option GoDate
  TotalPayment : Dollar
  FrankingCredit : Dollar
  UnfrankedAmount : Dollar
  FrankedAmount : Dollar
  WithholdingTax : Dollar
  SharesAllotted : Int
  CostOfSharesAllotted : Dollar
  TotalShares : Int
deriving Repr, DecidableEq

/-- Go zero value of Statement. -/
def zeroStatement : Statement :=
  ⟨[], [], [], none, ⟨0, false⟩, ⟨0, false⟩, ⟨0, false⟩, ⟨0, false⟩,
    ⟨0, false⟩, 0, ⟨0, false⟩, 0⟩

/-- type headerType (pdf.go lines 17-29). -/
inductive headerType
  | headerFranked
  | headerUnfranked
  | headerFrankingCredit
  | headerWithholdingTax
  | headerSharesAllotted
  | headerCostOfSharesAllotted
  | headerTotalShares
  | headerTotalPayment
  | headerOther
deriving Repr, DecidableEq

open headerType

/-- var numeralHeaders (pdf.go lines 176-191).  The source stores this as a
Go map iterated in unspecified order; it is modelled in the literal order of
the source text.  Every concrete input used below matches at most one entry,
so the chosen order never decides a result. -/
def numeralHeaders : List (headerType × List Str) :=
  [(headerFranked, ["franked amount".toList]),
   (headerUnfranked, ["unfranked".toList]),
   (headerWithholdingTax, ["withholding tax".toList, "less withholding tax".toList]),
   (headerSharesAllotted, ["number of shares allotted".toList]),
   (headerCostOfSharesAllotted, ["cost of shares allotted".toList]),
   (headerTotalShares, ["total shares".toList]),
   (headerTotalPayment, ["total payment".toList, "total amount".toList]),
   (headerFrankingCredit, ["franking credit".toList]),
   (headerOther,
    ["dividend rate".toList, "participating shares".toList,
     "participating holding".toList, "net amount".toList,
     "dividend reinvestment plan amount".toList,
     "cash balance brought forward".toList,
     "amount available from this payment".toList,
     "total amount available for reinvestment".toList,
     "cash balance carried forward".toList])]

/-- The populated-field test of the switch in numeralHeader (pdf.go lines
198-231); headerOther has no case there and is never rejected. -/
def populatedField (h : headerType) (state : Statement) : Bool :=
  match h with
  | headerFranked => state.FrankedAmount.HasValue
  | headerUnfranked => state.UnfrankedAmount.HasValue
  | headerWithholdingTax => state.WithholdingTax.HasValue
  | headerSharesAllotted => state.SharesAllotted ≠ 0
  | headerCostOfSharesAllotted => state.CostOfSharesAllotted.HasValue
  | headerTotalShares => state.TotalShares ≠ 0
  | headerTotalPayment => state.TotalPayment.HasValue
  | headerFrankingCredit => state.FrankingCredit.HasValue
  | headerOther => false

/-- func numeralHeader(str string, state statement.Statement) (pdf.go lines
193-239): the first table entry one of whose label phrases is a prefix of
the lowercased text and whose field is not already populated; none models
found = false. -/
def numeralHeader (s : Str) (state : Statement) : Option headerType :=
  (numeralHeaders.find? (fun e =>
      (e.2.any (fun t => t.isPrefixOf (lowerStr s))) && !(populatedField e.1 state))).map
    (fun e => e.1)

/-- strings.Join(xs, " "). -/
def joinSpace : List Str → Str
  | [] => []
  | [s] => s
  | s :: rest => s ++ ' ' :: joinSpace rest

/-- func findOtherData (pdf.go lines 310-337).  Date parse failures only
print a log line and leave the field unset. -/
def findOtherData (sentence : Str) (d : Dispenser) (state : Statement) :
    Option (Dispenser × Statement) :=
  (if 3 < sentence.length ∧ sentence.take 3 = "ABN".toList then
      (LastSentence d).bind fun d1 =>
        (DumpSentence d1).bind fun r =>
          (NextSentence r.2).bind fun r2 =>
            some (r2.2, { state with Entity := r.1 })
    else some (d, state)).bind fun r1 =>
  let st2 :=
    if 10 < sentence.length ∧ lowerStr (sentence.take 10) = "asx code: ".toList
    then { r1.2 with ASXCode := (sentence.drop 10).map toUpperChar }
    else r1.2
  if containsSub (lowerStr sentence) "payment date".toList ∨
     containsSub (lowerStr sentence) "holder reference number".toList then
    (NextSentence r1.1).bind fun r2 =>
      (DumpSentence r2.2).bind fun r3 =>
        let st3 := match parseDate r3.1 with
          | some t => { st2 with PaymentDate := some t }
          | none => st2
        (LastSentence r3.2).bind fun d4 =>
          some (d4, st3)
  else some (r1.1, st2)

/-- Ghost trace of extraction events: a label enqueued onto the pending
queue, or a numeral bound to a field.  The trace never influences the
computed statement. -/
inductive ExtractEvent
  | enqueued (h : headerType)
  | bound (h : headerType) (v : Rat)
deriving Repr, DecidableEq

/-- The switch of processText (pdf.go lines 281-298) binding one numeral
value to the field named by the queue head; headerOther has no case and
binds nothing (yet its entry is still popped by the caller). -/
def applyBind (h : headerType) (v : Rat) (state : Statement) : Statement :=
  match h with
  | headerFranked => { state with FrankedAmount := NewDollar v }
  | headerUnfranked => { state with UnfrankedAmount := NewDollar v }
  | headerWithholdingTax => { state with WithholdingTax := NewDollar v }
  | headerSharesAllotted => { state with SharesAllotted := goTrunc v }
  | headerCostOfSharesAllotted => { state with CostOfSharesAllotted := NewDollar v }
  | headerTotalShares => { state with TotalShares := goTrunc v }
  | headerTotalPayment => { state with TotalPayment := NewDollar v }
  | headerFrankingCredit => { state with FrankingCredit := NewDollar v }
  | headerOther => state

/-- Numeral-binding step of processText (pdf.go lines 276-302): with a
non-empty pending queue, run a fresh dispenser over just this sentence, jump
to its first numeral, and when one is found before position 5 bind its value
to the queue head and pop it. -/
def bindNumeralStep (sentence : Str) (queue : List headerType)
    (state : Statement) : Option (List headerType × Statement × List ExtractEvent) :=
  match queue with
  | [] => some ([], state, [])
  | h :: rest =>
    (NextSentence (NewDispenserFromSentence sentence)).bind fun r1 =>
      (JumpNextNumeral r1.2).bind fun r2 =>
        if r2.1 ∧ Position r2.2 < 5 then
          (Numeral r2.2).bind fun v =>
            some (rest, applyBind h v state, [ExtractEvent.bound h v])
        else some (h :: rest, state, [])

/-- Loop of processText (pdf.go lines 247-303), one fuel unit per sentence
iteration.  The Go loop always terminates (the cursor passes one sentence
per iteration); callers supply fuel ample for their input. -/
def processLoop (holders : List Str) :
    Nat → Dispenser → Statement → List headerType → List ExtractEvent →
    Option (Statement × List ExtractEvent)
  | 0, _, _, _, _ => none
  | fuel + 1, d, state, queue, tr =>
    (NextSentence d).bind fun r1 =>
    if r1.1 = false then some (state, tr)
    else
      (DumpSentence r1.2).bind fun r2 =>
      let sentence := r2.1
      match numeralHeader sentence state with
      | some ht =>
        processLoop holders fuel r2.2 state (queue ++ [ht])
          (tr ++ [ExtractEvent.enqueued ht])
      | none =>
        (StartOfSentence r2.2).bind fun d3 =>
        (DumpNSentences 5 d3).bind fun r4 =>
        let newSentence := joinSpace r4.1
        let st1 :=
          if state.AccountHolders = [] then
            { state with AccountHolders :=
                holders.filter (fun h =>
                  containsSub (lowerStr newSentence) (lowerStr h)) }
          else state
        match numeralHeader newSentence st1 with
        | some ht =>
          processLoop holders fuel r4.2 st1 (queue ++ [ht])
            (tr ++ [ExtractEvent.enqueued ht])
        | none =>
          (findOtherData sentence r4.2 st1).bind fun r5 =>
          (bindNumeralStep sentence queue r5.2).bind fun r6 =>
          processLoop holders fuel r5.1 r6.2.1 r6.1 (tr ++ r6.2.2)

/-- func processText(str []string, holders []string) (pdf.go lines 241-306),
with a ghost event trace.  Fuel 2*length+4 covers every possible iteration
count on the inputs used here. -/
def processText (str : List Str) (holders : List Str) :
    Option (Statement × List ExtractEvent) :=
  processLoop holders (2 * str.length + 4) (NewDispenser str) zeroStatement [] []

/-- Slice assignment t.text[len(t.text)-1] += " " (pdf.go line 95): append a
space to the last string of the list. -/
def appendSpaceLast : List Str → List Str
  | [] => []
  | [w] => [w ++ [' ']]
  | w :: ws => w :: appendSpaceLast ws

/-- Merge-or-append step of textTracker.write (pdf.go lines 94-98), applied
to each decoded text-showing operand: a decoded single space is appended to
the text of the last fragment when one exists, any other decoded string
becomes a new fragment.  Tokenization and character-map decoding live in the
external pdfreader packages and are outside this embedding. -/
def writeFragment (text : List Str) (s : Str) : List Str :=
  if s = [' '] ∧ text ≠ [] then appendSpaceLast text
  else text ++ [s]

/-- Well-formed cursor state: the cursor is in range (it may sit one past
the last fragment, the natural end state), the fragment sequence is
non-empty, and every fragment is a non-empty string.  This is the
space-suffix convention of the spec made precise, together with the range
every navigation operation itself establishes. -/
abbrev WF (d : Dispenser) : Prop :=
  0 ≤ d.i ∧ d.i ≤ strLen d ∧ d.str ≠ [] ∧ ∀ s ∈ d.str, s ≠ []

/-- Fragments of the sentence starting at the head of the list: the maximal
run of trailing-space fragments together with the terminating fragment
(the first one without a trailing space), per the space-suffix convention. -/
def sentenceTake : List Str → List Str
  | [] => []
  | f :: rest => if lastChar f = some ' ' then f :: sentenceTake rest else [f]

/-- Round half up, the rounding named by the spec: round(x) = floor(x + 1/2). -/
def roundHalfUp (x : Rat) : Int :=
  (x + 1 / 2).floor

theorem strLen_eq (d : Dispenser) : strLen d = (d.str.length : Int) :=
  rfl

theorem fragAt_some_of {l : List Str} {k : Int} (h0 : 0 ≤ k)
    (h1 : k < (l.length : Int)) : ∃ f, fragAt l k = some f ∧ f ∈ l := by
  have hk : k.toNat < l.length := by omega
  refine ⟨l.get ⟨k.toNat, hk⟩, ?_, List.get_mem _ _ _⟩
  rw [fragAt, dif_pos ⟨h0, hk⟩]

theorem fragAt_bounds {l : List Str} {k : Int} {f : Str}
    (h : fragAt l k = some f) : 0 ≤ k ∧ k < (l.length : Int) ∧ f ∈ l := by
  unfold fragAt at h
  split at h
  case isTrue hh =>
    obtain ⟨hh0, hh1⟩ := hh
    cases h
    exact ⟨hh0, by omega, List.get_mem _ _ _⟩
  case isFalse => cases h

theorem lastChar_some {s : Str} (h : s ≠ []) : ∃ c, lastChar s = some c := by
  rw [lastChar, ← Option.isSome_iff_exists, List.getLast?_isSome]
  exact h

theorem nextWord_some (d : Dispenser) (h : WF d) :
    ∃ b d2, NextWord d = some (b, d2) ∧ WF d2 ∧ d2.str = d.str := by
  obtain ⟨h0, h1, hne, hfr⟩ := h
  by_cases hlen : strLen d ≤ d.i
  · exact ⟨false, d, by rw [NextWord, if_pos hlen], ⟨h0, h1, hne, hfr⟩, rfl⟩
  · by_cases hcont : d.continueNextSentence = false
    · exact ⟨false, d, by rw [NextWord, if_neg hlen, if_pos hcont],
        ⟨h0, h1, hne, hfr⟩, rfl⟩
    · obtain ⟨f, hf, hmem⟩ := @fragAt_some_of d.str d.i h0
        (by rw [strLen_eq] at hlen; omega)
      by_cases hnum : (getNumeral f).isSome
      · exact ⟨false, d, by
          rw [NextWord, if_neg hlen, if_neg hcont, hf, Option.some_bind,
            if_pos hnum], ⟨h0, h1, hne, hfr⟩, rfl⟩
      · obtain ⟨c, hc⟩ := lastChar_some (hfr f hmem)
        refine ⟨true,
          ⟨d.i + 1,
            if c ≠ ' ' ∨ d.i + 1 = strLen d then false
            else d.continueNextSentence, d.str⟩, ?_, ⟨?_, ?_, hne, hfr⟩, rfl⟩
        · rw [NextWord, if_neg hlen, if_neg hcont, hf, Option.some_bind,
            if_neg hnum, hc, Option.some_bind]
        · show (0 : Int) ≤ d.i + 1
          omega
        · show d.i + 1 ≤ (d.str.length : Int)
          rw [strLen_eq] at hlen
          omega

theorem nextWord_true {d d2 : Dispenser} (h : NextWord d = some (true, d2)) :
    d2.i = d.i + 1 ∧ d2.str = d.str ∧ d.i < strLen d ∧ 0 ≤ d.i ∧
      d.continueNextSentence = true := by
  rw [NextWord] at h
  split at h
  · simp at h
  · split at h
    · simp at h
    · rename_i hlen hcont
      cases hfa : fragAt d.str d.i with
      | none => rw [hfa, Option.none_bind] at h; cases h
      | some f =>
        rw [hfa, Option.some_bind] at h
        obtain ⟨hb0, hb1, _⟩ := fragAt_bounds hfa
        split at h
        · simp at h
        · cases hc : lastChar f with
          | none => rw [hc, Option.none_bind] at h; cases h
          | some c =>
            rw [hc, Option.some_bind] at h
            simp only [Option.some.injEq, Prod.mk.injEq] at h
            refine ⟨?_, ?_, by rw [strLen_eq]; omega, hb0, by simpa using hcont⟩
            · rw [← h.2]
            · rw [← h.2]

theorem nextWord_false {d d2 : Dispenser} (h : NextWord d = some (false, d2)) :
    d2 = d ∧ (strLen d ≤ d.i ∨ d.continueNextSentence = false ∨
      ∃ f, fragAt d.str d.i = some f ∧ (getNumeral f).isSome) := by
  rw [NextWord] at h
  split at h
  · rename_i hh; cases h; exact ⟨rfl, Or.inl hh⟩
  · split at h
    · rename_i hh; cases h; exact ⟨rfl, Or.inr (Or.inl hh)⟩
    · cases hfa : fragAt d.str d.i with
      | none => rw [hfa, Option.none_bind] at h; cases h
      | some f =>
        rw [hfa, Option.some_bind] at h
        split at h
        · rename_i hnum; cases h
          exact ⟨rfl, Or.inr (Or.inr ⟨f, rfl, hnum⟩)⟩
        · cases hc : lastChar f with
          | none => rw [hc, Option.none_bind] at h; cases h
          | some c => rw [hc, Option.some_bind] at h; simp at h

theorem nextNumeral_some (d : Dispenser) (h : WF d) :
    ∃ b d2, NextNumeral d = some (b, d2) ∧ WF d2 ∧ d2.str = d.str := by
  obtain ⟨h0, h1, hne, hfr⟩ := h
  by_cases hlen : strLen d ≤ d.i
  · exact ⟨false, d, by rw [NextNumeral, if_pos hlen], ⟨h0, h1, hne, hfr⟩, rfl⟩
  · by_cases hcont : d.continueNextSentence = false
    · exact ⟨false, d, by rw [NextNumeral, if_neg hlen, if_pos hcont],
        ⟨h0, h1, hne, hfr⟩, rfl⟩
    · obtain ⟨f, hf, hmem⟩ := @fragAt_some_of d.str d.i h0
        (by rw [strLen_eq] at hlen; omega)
      by_cases hnum : (getNumeral f).isSome
      · obtain ⟨c, hc⟩ := lastChar_some (hfr f hmem)
        refine ⟨true,
          ⟨d.i + 1, if c ≠ ' ' then false else d.continueNextSentence,
            d.str⟩, ?_, ⟨?_, ?_, hne, hfr⟩, rfl⟩
        · rw [NextNumeral, if_neg hlen, if_neg hcont, hf, Option.some_bind,
            if_pos hnum, hc, Option.some_bind]
        · show (0 : Int) ≤ d.i + 1
          omega
        · show d.i + 1 ≤ (d.str.length : Int)
          rw [strLen_eq] at hlen
          omega
      · exact ⟨false, d, by
          rw [NextNumeral, if_neg hlen, if_neg hcont, hf, Option.some_bind,
            if_neg hnum], ⟨h0, h1, hne, hfr⟩, rfl⟩

theorem nextNumeral_true {d d2 : Dispenser} (h : NextNumeral d = some (true, d2)) :
    ∃ f, fragAt d.str d.i = some f ∧ (getNumeral f).isSome ∧
      d2.i = d.i + 1 ∧ d2.str = d.str ∧ d.i < strLen d ∧ 0 ≤ d.i ∧
      d.continueNextSentence = true := by
  rw [NextNumeral] at h
  split at h
  · simp at h
  · split at h
    · simp at h
    · rename_i hlen hcont
      cases hfa : fragAt d.str d.i with
      | none => rw [hfa, Option.none_bind] at h; cases h
      | some f =>
        rw [hfa, Option.some_bind] at h
        obtain ⟨hb0, hb1, _⟩ := fragAt_bounds hfa
        split at h
        · rename_i hnum
          cases hc : lastChar f with
          | none => rw [hc, Option.none_bind] at h; cases h
          | some c =>
            rw [hc, Option.some_bind] at h
            simp only [Option.some.injEq, Prod.mk.injEq] at h
            exact ⟨f, rfl, hnum, by rw [← h.2], by rw [← h.2],
              by rw [strLen_eq]; omega, hb0, by simpa using hcont⟩
        · simp at h

theorem nextNumeral_false {d d2 : Dispenser} (h : NextNumeral d = some (false, d2)) :
    d2 = d ∧ (strLen d ≤ d.i ∨ d.continueNextSentence = false ∨
      ∃ f, fragAt d.str d.i = some f ∧ getNumeral f = none) := by
  rw [NextNumeral] at h
  split at h
  · rename_i hh; cases h; exact ⟨rfl, Or.inl hh⟩
  · split at h
    · rename_i hh; cases h; exact ⟨rfl, Or.inr (Or.inl hh)⟩
    · cases hfa : fragAt d.str d.i with
      | none => rw [hfa, Option.none_bind] at h; cases h
      | some f =>
        rw [hfa, Option.some_bind] at h
        split at h
        · rename_i hnum
          cases hc : lastChar f with
          | none => rw [hc, Option.none_bind] at h; cases h
          | some c => rw [hc, Option.some_bind] at h; simp at h
        · rename_i hnum
          cases h
          exact ⟨rfl, Or.inr (Or.inr ⟨f, rfl,
            Option.not_isSome_iff_eq_none.mp hnum⟩)⟩

theorem word_some (d : Dispenser) (h : WF d) : (Word d).isSome := by
  obtain ⟨h0, h1, _, _⟩ := h
  rw [Word]
  split
  · simp
  · rename_i hh
    push_neg at hh
    rw [strLen_eq] at hh
    obtain ⟨f, hf, _⟩ := @fragAt_some_of d.str (d.i - 1) (by omega) (by omega)
    rw [hf]
    simp

theorem numeral_some (d : Dispenser) (h : WF d) : (Numeral d).isSome := by
  obtain ⟨h0, h1, _, _⟩ := h
  rw [Numeral]
  split
  · simp
  · rename_i hh
    push_neg at hh
    rw [strLen_eq] at hh
    obtain ⟨f, hf, _⟩ := @fragAt_some_of d.str (d.i - 1) (by omega) (by omega)
    rw [hf]
    simp

theorem fragAt_get {l : List Str} {k : Int} {f : Str} (h : fragAt l k = some f) :
    ∃ hk : k.toNat < l.length, f = l.get ⟨k.toNat, hk⟩ := by
  unfold fragAt at h
  split at h
  case isTrue hh => cases h; exact ⟨hh.2, rfl⟩
  case isFalse => cases h

theorem nextSentenceScan_some (str : List Str) (hfr : ∀ s ∈ str, s ≠ []) :
    ∀ fuel : Nat, ∀ i : Int, 0 ≤ i → i ≤ (str.length : Int) →
      (str.length : Int) - i < (fuel : Int) →
      ∃ j, nextSentenceScan str fuel i = some j ∧ i ≤ j ∧
        j ≤ (str.length : Int) := by
  intro fuel
  induction fuel with
  | zero => intro i h0 h1 h2; exact absurd h2 (by omega)
  | succ n ih =>
    intro i h0 h1 h2
    rw [nextSentenceScan]
    by_cases hge : (str.length : Int) ≤ i
    · exact ⟨i, by rw [if_pos hge], le_refl _, h1⟩
    · rw [if_neg hge]
      obtain ⟨f, hf, hmem⟩ := @fragAt_some_of str i h0 (by omega)
      obtain ⟨c, hc⟩ := lastChar_some (hfr f hmem)
      rw [hf, Option.some_bind, hc, Option.some_bind]
      by_cases hsp : c ≠ ' '
      · exact ⟨i + 1, by rw [if_pos hsp], by omega, by omega⟩
      · rw [if_neg hsp]
        obtain ⟨j, hj, hj1, hj2⟩ := ih (i + 1) (by omega) (by omega) (by omega)
        exact ⟨j, hj, by omega, hj2⟩

theorem nextSentence_some (d : Dispenser) (h : WF d) :
    ∃ b d2, NextSentence d = some (b, d2) ∧ WF d2 ∧ d2.str = d.str := by
  obtain ⟨h0, h1, hne, hfr⟩ := h
  by_cases hlen : strLen d ≤ d.i
  · exact ⟨false, d, by rw [NextSentence, if_pos hlen], ⟨h0, h1, hne, hfr⟩, rfl⟩
  · by_cases hcont : d.continueNextSentence = false
    · exact ⟨true, ⟨d.i, true, d.str⟩,
        by rw [NextSentence, if_neg hlen, if_pos hcont], ⟨h0, h1, hne, hfr⟩, rfl⟩
    · rw [strLen_eq] at h1 hlen
      obtain ⟨j, hj, hj1, hj2⟩ := nextSentenceScan_some d.str hfr
        (d.str.length + 1) d.i h0 h1 (by push_cast; omega)
      by_cases hc1 : j + 1 = strLen d
      · refine ⟨false, ⟨j + 1, d.continueNextSentence, d.str⟩, ?_,
          ⟨by show (0 : Int) ≤ j + 1; omega, ?_, hne, hfr⟩, rfl⟩
        · rw [NextSentence, if_neg (by rw [strLen_eq]; omega), if_neg hcont,
            hj, Option.some_bind, if_pos hc1]
        · show j + 1 ≤ (d.str.length : Int)
          rw [strLen_eq] at hc1
          omega
      · by_cases hc2 : strLen d ≤ j
        · refine ⟨false, ⟨j, d.continueNextSentence, d.str⟩, ?_,
            ⟨by show (0 : Int) ≤ j; omega,
              by show j ≤ (d.str.length : Int); omega, hne, hfr⟩, rfl⟩
          rw [NextSentence, if_neg (by rw [strLen_eq]; omega), if_neg hcont,
            hj, Option.some_bind, if_neg hc1, if_pos hc2]
        · refine ⟨true, ⟨j, d.continueNextSentence, d.str⟩, ?_,
            ⟨by show (0 : Int) ≤ j; omega,
              by show j ≤ (d.str.length : Int); omega, hne, hfr⟩, rfl⟩
          rw [NextSentence, if_neg (by rw [strLen_eq]; omega), if_neg hcont,
            hj, Option.some_bind, if_neg hc1, if_neg hc2]

theorem sentenceTake_length_le (l : List Str) :
    (sentenceTake l).length ≤ l.length := by
  induction l with
  | nil => rw [sentenceTake]
  | cons f rest ih =>
    rw [sentenceTake]
    split
    · simpa using ih
    · simp

theorem dumpLoop_eq (str : List Str) (hfr : ∀ s ∈ str, s ≠ []) :
    ∀ fuel : Nat, ∀ i : Int, ∀ acc : Str, 0 ≤ i → i ≤ (str.length : Int) →
      (str.length : Int) - i < (fuel : Int) →
      dumpLoop str fuel i acc =
        some (acc ++ (sentenceTake (str.drop i.toNat)).flatten,
          i + ((sentenceTake (str.drop i.toNat)).length : Int)) := by
  intro fuel
  induction fuel with
  | zero => intro i acc h0 h1 h2; exact absurd h2 (by omega)
  | succ n ih =>
    intro i acc h0 h1 h2
    rw [dumpLoop]
    by_cases hge : (str.length : Int) ≤ i
    · rw [if_pos hge]
      rw [List.drop_eq_nil_of_le (by omega), sentenceTake]
      simp
    · rw [if_neg hge]
      obtain ⟨f, hf, hmem⟩ := @fragAt_some_of str i h0 (by omega)
      obtain ⟨c, hc⟩ := lastChar_some (hfr f hmem)
      obtain ⟨hk, hget⟩ := fragAt_get hf
      have hdrop : str.drop i.toNat = f :: str.drop (i.toNat + 1) := by
        rw [hget, List.get_eq_getElem]
        exact (List.getElem_cons_drop str i.toNat hk).symm
      rw [hf, Option.some_bind, hc, Option.some_bind, hdrop]
      by_cases hsp : c ≠ ' '
      · have hg : ¬ lastChar f = some ' ' := by
          rw [hc]; simpa using hsp
        rw [if_pos hsp, sentenceTake, if_neg hg]
        simp
      · have hg : lastChar f = some ' ' := by
          push_neg at hsp; rw [hc, hsp]
        rw [if_neg hsp, sentenceTake, if_pos hg]
        have h3 : (i + 1).toNat = i.toNat + 1 := by omega
        rw [ih (i + 1) (acc ++ f) (by omega) (by omega) (by omega), h3]
        simp only [List.flatten_cons, List.length_cons, Option.some.injEq,
          Prod.mk.injEq]
        refine ⟨by simp [List.append_assoc], by push_cast; omega⟩

theorem dumpSentence_closed {d : Dispenser}
    (h : d.continueNextSentence = false) : DumpSentence d = some ([], d) := by
  rw [DumpSentence, if_pos h]

theorem dumpSentence_open (d : Dispenser) (h : WF d)
    (hc : d.continueNextSentence = true) :
    DumpSentence d =
      some ((sentenceTake (d.str.drop d.i.toNat)).flatten,
        ⟨d.i + ((sentenceTake (d.str.drop d.i.toNat)).length : Int), false,
          d.str⟩) := by
  obtain ⟨h0, h1, hne, hfr⟩ := h
  rw [strLen_eq] at h1
  rw [DumpSentence, if_neg (by rw [hc]; simp),
    dumpLoop_eq d.str hfr (d.str.length + 1) d.i [] h0 h1 (by push_cast; omega),
    Option.some_bind]
  simp

theorem dumpSentence_some (d : Dispenser) (h : WF d) :
    ∃ s d2, DumpSentence d = some (s, d2) ∧ WF d2 ∧ d2.str = d.str ∧
      d2.continueNextSentence = false := by
  by_cases hc : d.continueNextSentence = false
  · exact ⟨[], d, dumpSentence_closed hc, h, rfl, hc⟩
  · obtain ⟨h0, h1, hne, hfr⟩ := h
    rw [Bool.not_eq_false] at hc
    refine ⟨_, _, dumpSentence_open d ⟨h0, h1, hne, hfr⟩ hc,
      ⟨?_, ?_, hne, hfr⟩, rfl, rfl⟩
    · show (0 : Int) ≤ d.i + _
      omega
    · show d.i + ((sentenceTake (d.str.drop d.i.toNat)).length : Int) ≤
        (d.str.length : Int)
      have hst := sentenceTake_length_le (d.str.drop d.i.toNat)
      rw [List.length_drop] at hst
      rw [strLen_eq] at h1
      omega

theorem dumpNLoop_some (k : Nat) :
    ∀ d : Dispenser, WF d →
      ∃ out d2, dumpNLoop k d = some (out, d2) ∧ WF d2 ∧ d2.str = d.str := by
  induction k with
  | zero => intro d h; exact ⟨[], d, rfl, h, rfl⟩
  | succ n ih =>
    intro d h
    obtain ⟨b, d1, hns, hwf1, hstr1⟩ := nextSentence_some d h
    rw [dumpNLoop, hns, Option.some_bind]
    by_cases hb : b = true
    · obtain ⟨s, d2, hds, hwf2, hstr2, _⟩ := dumpSentence_some d1 hwf1
      obtain ⟨out, d3, hdl, hwf3, hstr3⟩ := ih d2 hwf2
      rw [hb, if_pos rfl, hds, Option.some_bind, hdl, Option.some_bind]
      exact ⟨s :: out, d3, rfl, hwf3, by rw [hstr3, hstr2, hstr1]⟩
    · rw [Bool.not_eq_true] at hb
      rw [hb, if_neg (by simp)]
      exact ⟨[], d1, rfl, hwf1, hstr1⟩

theorem dumpNSentences_self (d : Dispenser) (n : Nat) (h : WF d) :
    ∃ out, DumpNSentences n d = some (out, d) := by
  obtain ⟨s, d1, hds, hwf1, hstr1, _⟩ := dumpSentence_some d h
  obtain ⟨out, d2, hdl, hwf2, hstr2⟩ := dumpNLoop_some (n - 1) d1 hwf1
  refine ⟨s :: out, ?_⟩
  rw [DumpNSentences, hds, Option.some_bind, hdl, Option.some_bind]
  have hs : d2.str = d.str := by rw [hstr2, hstr1]
  obtain ⟨di, dc, ds⟩ := d
  simp_all

theorem startCond_some (d : Dispenser) (h : WF d) :
    ∃ b, startCond d = some b := by
  obtain ⟨h0, h1, hne, hfr⟩ := h
  rw [startCond]
  by_cases hg : 0 < d.i ∧ d.i < strLen d
  · rw [if_pos hg]
    obtain ⟨f1, hf1, hm1⟩ := @fragAt_some_of d.str d.i h0
      (by rw [strLen_eq] at hg; exact hg.2)
    obtain ⟨c1, hc1⟩ := lastChar_some (hfr f1 hm1)
    rw [hf1, Option.some_bind, hc1, Option.some_bind]
    by_cases hs1 : c1 ≠ ' '
    · rw [if_pos hs1]
      obtain ⟨f0, hf0, hm0⟩ := @fragAt_some_of d.str (d.i - 1) (by omega)
        (by rw [strLen_eq] at hg; omega)
      obtain ⟨c0, hc0⟩ := lastChar_some (hfr f0 hm0)
      rw [hf0, Option.some_bind, hc0, Option.some_bind]
      exact ⟨_, rfl⟩
    · rw [if_neg hs1]
      exact ⟨false, rfl⟩
  · rw [if_neg hg]
    exact ⟨false, rfl⟩

theorem startScan_some (str : List Str) (hfr : ∀ s ∈ str, s ≠ []) :
    ∀ fuel : Nat, ∀ i : Int, 0 ≤ i → i < (str.length : Int) →
      i < (fuel : Int) →
      ∃ j, startScan str fuel i = some j ∧ 0 ≤ j ∧ j ≤ (str.length : Int) := by
  intro fuel
  induction fuel with
  | zero => intro i h0 h1 h2; exact absurd h2 (by omega)
  | succ n ih =>
    intro i h0 h1 h2
    rw [startScan]
    by_cases hle : i ≤ 0
    · exact ⟨i, by rw [if_pos hle], by omega, by omega⟩
    · rw [if_neg hle]
      obtain ⟨f, hf, hmem⟩ := @fragAt_some_of str i h0 h1
      obtain ⟨c, hc⟩ := lastChar_some (hfr f hmem)
      rw [hf, Option.some_bind, hc, Option.some_bind]
      by_cases hsp : c ≠ ' '
      · exact ⟨i + 1, by rw [if_pos hsp], by omega, by omega⟩
      · rw [if_neg hsp]
        obtain ⟨j, hj, hj0, hj1⟩ := ih (i - 1) (by omega) (by omega) (by omega)
        exact ⟨j, hj, hj0, hj1⟩

theorem startOfSentence_some (d : Dispenser) (h : WF d) :
    ∃ d2, StartOfSentence d = some d2 ∧ d2.str = d.str := by
  obtain ⟨b, hb⟩ := startCond_some d h
  obtain ⟨h0, h1, hne, hfr⟩ := h
  rw [StartOfSentence, hb, Option.some_bind]
  by_cases hbv : b = true
  · subst hbv
    rw [if_pos rfl]
    by_cases hcont : d.continueNextSentence = false
    · rw [if_pos hcont]; exact ⟨_, rfl, rfl⟩
    · rw [if_neg hcont]; exact ⟨d, rfl, rfl⟩
  · rw [Bool.not_eq_true] at hbv
    subst hbv
    rw [if_neg (by simp)]
    by_cases hz : d.i = 0
    · rw [if_pos hz]; exact ⟨_, rfl, rfl⟩
    · rw [if_neg hz]
      by_cases hlen1 : d.str.length = 1
      · rw [if_pos hlen1]; exact ⟨_, rfl, rfl⟩
      · rw [if_neg hlen1]
        have key : ∀ i2 : Int, 0 ≤ i2 → i2 < (d.str.length : Int) →
            ∃ d2, ((startScan d.str (d.str.length + 2) i2).bind fun j =>
                some { d with i := j, continueNextSentence := true }) =
              some d2 ∧ d2.str = d.str := by
          intro i2 ha2 hb2
          obtain ⟨j, hj, _, _⟩ := startScan_some d.str hfr
            (d.str.length + 2) i2 ha2 hb2 (by push_cast; omega)
          rw [hj, Option.some_bind]
          exact ⟨_, rfl, rfl⟩
        have hlen2 : 2 ≤ d.str.length := by
          have hpos : d.str.length ≠ 0 := by
            intro hcon
            exact hne (List.eq_nil_of_length_eq_zero hcon)
          omega
        rw [strLen_eq] at h1
        by_cases hb1 : d.i = strLen d ∨ d.continueNextSentence = false
        · rw [if_pos hb1]
          dsimp only
          by_cases hb2 : d.i - 2 < 0
          · rw [if_pos hb2]
            exact key 0 (by omega) (by omega)
          · rw [if_neg hb2]
            exact key (d.i - 2) (by omega) (by omega)
        · rw [if_neg hb1]
          dsimp only
          push_neg at hb1
          rw [strLen_eq] at hb1
          by_cases hb2 : d.i < 0
          · exact absurd hb2 (by omega)
          · rw [if_neg hb2]
            exact key d.i (by omega) (by omega)

theorem atEnd_false {d : Dispenser} (h : AtEndOfSentence d = false) :
    d.continueNextSentence = true ∧ d.i < strLen d := by
  rw [AtEndOfSentence] at h
  split at h
  · cases h
  · split at h
    · cases h
    · rename_i hc hl
      exact ⟨by simpa using hc, by omega⟩

theorem jumpLoop_some :
    ∀ fuel : Nat, ∀ d : Dispenser, WF d →
      (d.str.length : Int) + 2 ≤ (fuel : Int) + d.i →
      ∃ d1, jumpLoop fuel d = some d1 ∧ WF d1 ∧ d1.str = d.str := by
  intro fuel
  induction fuel with
  | zero =>
    intro d h hf
    obtain ⟨h0, h1, _, _⟩ := h
    rw [strLen_eq] at h1
    exact absurd hf (by push_cast; omega)
  | succ n ih =>
    intro d h hf
    rw [jumpLoop]
    by_cases hend : AtEndOfSentence d
    · rw [if_pos hend]; exact ⟨d, rfl, h, rfl⟩
    · rw [if_neg hend]
      obtain ⟨b, d2, hnn, hwf2, hstr2⟩ := nextNumeral_some d h
      rw [hnn, Option.some_bind]
      by_cases hbv : b = true
      · subst hbv
        rw [if_pos rfl]
        obtain ⟨f, hf2, hnum, hi2, hstr2b, hlt, hge, _⟩ := nextNumeral_true hnn
        obtain ⟨hw0, hw1, hwne, hwfr⟩ := hwf2
        refine ⟨⟨d2.i - 1, true, d2.str⟩, rfl, ⟨?_, ?_, hwne, hwfr⟩, hstr2⟩
        · show (0 : Int) ≤ d2.i - 1
          omega
        · show d2.i - 1 ≤ (d2.str.length : Int)
          rw [strLen_eq] at hw1
          omega
      · rw [Bool.not_eq_true] at hbv
        subst hbv
        rw [if_neg (by simp)]
        obtain ⟨bw, d3, hnw, hwf3, hstr3⟩ := nextWord_some d h
        rw [hnw, Option.some_bind]
        by_cases hbw : bw = true
        · subst hbw
          obtain ⟨hi3, hstr3b, _, _, _⟩ := nextWord_true hnw
          obtain ⟨d4, hj4, hwf4, hstr4⟩ := ih d3 hwf3 (by
            rw [hi3, hstr3b]
            push_cast at hf ⊢
            omega)
          exact ⟨d4, hj4, hwf4, by rw [hstr4, hstr3]⟩
        · rw [Bool.not_eq_true] at hbw
          subst hbw
          exfalso
          obtain ⟨hcont, hlt⟩ := atEnd_false (by simpa using hend)
          obtain ⟨hd2, hcase2⟩ := nextNumeral_false hnn
          obtain ⟨hd3, hcase3⟩ := nextWord_false hnw
          rcases hcase2 with hx | hx | ⟨f, hfx, hfn⟩
          · omega
          · rw [hcont] at hx; cases hx
          · rcases hcase3 with hy | hy | ⟨g, hgy, hgn⟩
            · omega
            · rw [hcont] at hy; cases hy
            · rw [hfx] at hgy
              cases hgy
              rw [hfn] at hgn
              cases hgn

theorem jumpLoop_inv :
    ∀ fuel : Nat, ∀ d d1 : Dispenser, jumpLoop fuel d = some d1 →
      d1.str = d.str ∧
      (AtEndOfSentence d1 = true ∨
        (d1.continueNextSentence = true ∧ ∃ f, fragAt d1.str d1.i = some f ∧
          (getNumeral f).isSome)) := by
  intro fuel
  induction fuel with
  | zero => intro d d1 h; cases h
  | succ n ih =>
    intro d d1 h
    rw [jumpLoop] at h
    split at h
    · rename_i hend
      cases h
      exact ⟨rfl, Or.inl hend⟩
    · cases hnn : NextNumeral d with
      | none => rw [hnn, Option.none_bind] at h; cases h
      | some r =>
        obtain ⟨b, d2⟩ := r
        rw [hnn, Option.some_bind] at h
        by_cases hbv : b = true
        · subst hbv
          rw [if_pos rfl] at h
          cases h
          obtain ⟨f, hf2, hnum, hi2, hstr2, hlt, hge, _⟩ := nextNumeral_true hnn
          refine ⟨hstr2, Or.inr ⟨rfl, f, ?_, hnum⟩⟩
          show fragAt d2.str (d2.i - 1) = some f
          rw [hstr2, hi2]
          simpa using hf2
        · rw [Bool.not_eq_true] at hbv
          subst hbv
          rw [if_neg (by simp)] at h
          cases hnw : NextWord d with
          | none => rw [hnw, Option.none_bind] at h; cases h
          | some r2 =>
            obtain ⟨bw, d3⟩ := r2
            rw [hnw, Option.some_bind] at h
            obtain ⟨hstr1, hrest⟩ := ih d3 d1 h
            have hstr3 : d3.str = d.str := by
              by_cases hbw : bw = true
              · subst hbw
                exact (nextWord_true hnw).2.1
              · rw [Bool.not_eq_true] at hbw
                subst hbw
                rw [(nextWord_false hnw).1]
            exact ⟨by rw [hstr1, hstr3], hrest⟩

theorem jumpNextNumeral_true {d d2 : Dispenser}
    (h : JumpNextNumeral d = some (true, d2)) :
    d2.str = d.str ∧ 1 ≤ d2.i ∧ d2.i ≤ strLen d2 ∧
      d2.continueNextSentence = true ∧
      ∃ f v, fragAt d2.str (d2.i - 1) = some f ∧ getNumeral f = some v ∧
        Numeral d2 = some v := by
  rw [JumpNextNumeral] at h
  cases hjl : jumpLoop (d.str.length + 2) d with
  | none => rw [hjl, Option.none_bind] at h; cases h
  | some d1 =>
    rw [hjl, Option.some_bind] at h
    obtain ⟨hstr1, hinv⟩ := jumpLoop_inv _ _ _ hjl
    cases hnn : NextNumeral d1 with
    | none => rw [hnn, Option.none_bind] at h; cases h
    | some r =>
      obtain ⟨b, d3⟩ := r
      rw [hnn, Option.some_bind] at h
      by_cases hbv : b = true
      · subst hbv
        rw [if_neg (by simp)] at h
        simp only [Option.some.injEq, Prod.mk.injEq, true_and] at h
        obtain ⟨f, hf2, hnum, hi3, hstr3, hlt, hge, _⟩ := nextNumeral_true hnn
        obtain ⟨v, hv⟩ := Option.isSome_iff_exists.mp hnum
        subst h
        refine ⟨by rw [hstr3, hstr1], by show 1 ≤ d3.i; omega,
          by show d3.i ≤ strLen ⟨d3.i, true, d3.str⟩
             rw [strLen_eq, hstr3, ← strLen_eq]
             omega,
          rfl, f, v, ?_, hv, ?_⟩
        · show fragAt d3.str (d3.i - 1) = some f
          rw [hstr3, hi3]
          simpa using hf2
        · show Numeral ⟨d3.i, true, d3.str⟩ = some v
          rw [Numeral]
          rw [if_neg (by
            show ¬(strLen ⟨d3.i, true, d3.str⟩ < d3.i ∨ d3.i = 0)
            have hx : strLen ⟨d3.i, true, d3.str⟩ = (d1.str.length : Int) := by
              rw [strLen_eq]
              show (d3.str.length : Int) = (d1.str.length : Int)
              rw [hstr3]
            rw [hx, hi3]
            rw [strLen_eq] at hlt
            omega)]
          have : fragAt d3.str (d3.i - 1) = some f := by
            rw [hstr3, hi3]
            simpa using hf2
          rw [this, Option.some_bind, hv]
          rfl
      · rw [Bool.not_eq_true] at hbv
        subst hbv
        by_cases hend : AtEndOfSentence d3
        · rw [if_pos ⟨rfl, hend⟩] at h
          simp at h
        · rw [if_neg (by simp [hend])] at h
          obtain ⟨hd3, _⟩ := nextNumeral_false hnn
          subst hd3
          rcases hinv with hA | ⟨hcont, f, hf, hnum⟩
          · rw [hA] at hend
            exact absurd rfl hend
          · exfalso
            obtain ⟨hb0, hb1, _⟩ := fragAt_bounds hf
            rw [NextNumeral, if_neg (by rw [strLen_eq]; omega),
              if_neg (by rw [hcont]; simp), hf, Option.some_bind,
              if_pos hnum] at hnn
            cases hcf : lastChar f with
            | none => rw [hcf, Option.none_bind] at hnn; cases hnn
            | some c => rw [hcf, Option.some_bind] at hnn; simp at hnn

theorem jumpNextNumeral_false {d d2 : Dispenser}
    (h : JumpNextNumeral d = some (false, d2)) :
    d2.i = d.i ∧ d2.str = d.str := by
  rw [JumpNextNumeral] at h
  cases hjl : jumpLoop (d.str.length + 2) d with
  | none => rw [hjl, Option.none_bind] at h; cases h
  | some d1 =>
    rw [hjl, Option.some_bind] at h
    obtain ⟨hstr1, _⟩ := jumpLoop_inv _ _ _ hjl
    cases hnn : NextNumeral d1 with
    | none => rw [hnn, Option.none_bind] at h; cases h
    | some r =>
      obtain ⟨b, d3⟩ := r
      rw [hnn, Option.some_bind] at h
      have hstr3 : d3.str = d1.str := by
        by_cases hbv : b = true
        · subst hbv
          exact (nextNumeral_true hnn).choose_spec.2.2.2.1
        · rw [Bool.not_eq_true] at hbv
          subst hbv
          rw [(nextNumeral_false hnn).1]
      split at h
      · simp only [Option.some.injEq, Prod.mk.injEq] at h
        refine ⟨?_, ?_⟩
        · rw [← h.2]
        · rw [← h.2]
          show d3.str = d.str
          rw [hstr3, hstr1]
      · simp at h

theorem jumpNextNumeral_some (d : Dispenser) (h : WF d) :
    (JumpNextNumeral d).isSome := by
  have h0 := h.1
  obtain ⟨d1, hjl, hwf1, hstr1⟩ := jumpLoop_some (d.str.length + 2) d h
    (by push_cast; omega)
  rw [JumpNextNumeral, hjl, Option.some_bind]
  obtain ⟨b, d3, hnn, hwf3, _⟩ := nextNumeral_some d1 hwf1
  rw [hnn, Option.some_bind]
  split <;> simp

theorem nextSentence_str {d : Dispenser} {r : Bool × Dispenser}
    (h : NextSentence d = some r) : r.2.str = d.str := by
  rw [NextSentence] at h
  split at h
  · cases h; rfl
  · split at h
    · cases h; rfl
    · cases hs : nextSentenceScan d.str (d.str.length + 1) d.i with
      | none => rw [hs, Option.none_bind] at h; cases h
      | some j =>
        rw [hs, Option.some_bind] at h
        split at h
        · cases h; rfl
        · split at h
          · cases h; rfl
          · cases h; rfl

theorem appendSpaceLast_append (init : List Str) (w : Str) :
    appendSpaceLast (init ++ [w]) = init ++ [w ++ [' ']] := by
  induction init with
  | nil => rfl
  | cons a rest ih =>
    cases rest with
    | nil => rfl
    | cons b r2 =>
      show a :: appendSpaceLast ((b :: r2) ++ [w]) =
        a :: ((b :: r2) ++ [w ++ [' ']])
      rw [ih]

unseal Rat.mul Rat.add Rat.sub Rat.inv in
set_option maxRecDepth 8192 in
/-- C1: the currency binding evaluated against the claimed rule.  The code
computes int64(number*100 + 0.5) in float64; binding the raw decimal 1.005
(first parsed to the nearest binary64, then pushed through the two rounded
float64 operations) stores 100 cents although round-half-up of 1.005*100 is
101, and binding -1 stores -99 cents although round-half-up of -100 is
-100 — so the float64 idiom does not implement the round(value*100)
conversion the spec states as the rule and as the point of avoiding
floating-point drift.  The parts of the claim the code does satisfy are
evaluated too: 36.005 gives 3601 cents, 0 gives 0 cents serializing as
"0.00", an unset field serializes as null, and the present flag is set for
every bound value. -/
theorem c1_newDollar :
    NewDollar (roundB64 (1005 / 1000 : Rat)) = ⟨100, true⟩ ∧
    roundHalfUp ((1005 / 1000 : Rat) * 100) = 101 ∧
    NewDollar (-1) = ⟨-99, true⟩ ∧
    roundHalfUp ((-1 : Rat) * 100) = -100 ∧
    NewDollar (roundB64 (36005 / 1000 : Rat)) = ⟨3601, true⟩ ∧
    NewDollar 0 = ⟨0, true⟩ ∧
    marshalDollar ⟨0, true⟩ = "0.00".toList ∧
    (∀ c : Int, marshalDollar ⟨c, false⟩ = "null".toList) ∧
    (∀ v : Rat, (NewDollar v).HasValue = true) := by
  refine ⟨by decide, by decide, by decide, by decide, by decide, by decide,
    by decide, fun c => rfl, fun v => rfl⟩

unseal Rat.mul Rat.add Rat.sub Rat.inv in
/-- C2, counterexample: two documents refute the claim.  In
"franked amount" / "franked amount" / "5.00" / "6.00" / "7.00" the franked
label recurs before any numeral arrives, so its field identifier is enqueued
twice (the field is not yet populated when the label recurs) and then bound
twice (to 5 and then 6), finishing at 600 cents.  In
"total shares" / "0" / "total shares" / "5" the integer field TotalShares is
bound to the numeral 0; the populated test for integer fields is a nonzero
comparison, so the recurring label is accepted again even after the bind,
and the field is enqueued and bound a second time (to 5). -/
theorem c2_counterexample :
    (processText
        ["franked ".toList, "amount".toList, "franked ".toList,
         "amount".toList, "5.00".toList, "6.00".toList, "7.00".toList]
        []).map (fun r => (r.1.FrankedAmount, r.2)) =
      some (⟨600, true⟩,
        [ExtractEvent.enqueued headerFranked,
         ExtractEvent.enqueued headerFranked,
         ExtractEvent.bound headerFranked 5,
         ExtractEvent.bound headerFranked 6]) ∧
    (processText
        ["total ".toList, "shares".toList, "0".toList, "total ".toList,
         "shares".toList, "5".toList]
        []).map (fun r => (r.1.TotalShares, r.2)) =
      some (5,
        [ExtractEvent.enqueued headerTotalShares,
         ExtractEvent.bound headerTotalShares 0,
         ExtractEvent.enqueued headerTotalShares,
         ExtractEvent.bound headerTotalShares 5]) := by
  exact ⟨by decide, by decide⟩

/-- C2, amended: label recognition rejects any label phrase whose field
identifier is currently populated — a currency field counts as populated
once its present flag is set, an integer field only while its value is
nonzero, and the Other group never.  Neither the at-most-once-enqueue
invariant nor a never-bound-twice property holds: a label recurring before
its numeral arrives is enqueued again, and an integer field bound to the
numeral 0 (or an Other entry) is re-accepted even after binding. -/
theorem c2_numeralHeader_rejects (s : Str) (st : Statement) (ht : headerType)
    (h : numeralHeader s st = some ht) : populatedField ht st = false := by
  rw [numeralHeader] at h
  obtain ⟨e, he, hee⟩ := Option.map_eq_some'.mp h
  have hp := List.find?_some he
  rw [Bool.and_eq_true] at hp
  rw [← hee]
  simpa using hp.2

/-- C2 witness: a fresh statement accepts the franked-amount label, whose
field is indeed unpopulated. -/
theorem c2_numeralHeader_rejects_witness :
    populatedField headerFranked zeroStatement = false :=
  c2_numeralHeader_rejects ("franked amount".toList) zeroStatement
    headerFranked (by decide)

/-- C3: for every well-formed dispenser state, jump-to-next-numeral either
returns true having consumed the numeral, so that the current-numeral
accessor yields exactly the parsed value of the fragment before the cursor,
or returns false with the cursor restored to its exact prior position and
the fragment sequence untouched. -/
theorem c3_jumpNextNumeral (d : Dispenser) (h : WF d) :
    ∃ r d2, JumpNextNumeral d = some (r, d2) ∧
      (r = true → ∃ f v, fragAt d2.str (d2.i - 1) = some f ∧
        getNumeral f = some v ∧ Numeral d2 = some v) ∧
      (r = false → d2.i = d.i ∧ d2.str = d.str) := by
  have hs := jumpNextNumeral_some d h
  obtain ⟨p, hp⟩ := Option.isSome_iff_exists.mp hs
  obtain ⟨r, d2⟩ := p
  refine ⟨r, d2, hp, ?_, ?_⟩
  · intro hr
    subst hr
    obtain ⟨_, _, _, _, f, v, hf, hv, hn⟩ := jumpNextNumeral_true hp
    exact ⟨f, v, hf, hv, hn⟩
  · intro hr
    subst hr
    exact jumpNextNumeral_false hp

/-- C3 witness: the sentence "a 5" at its start. -/
theorem c3_jumpNextNumeral_witness :
    ∃ r d2, JumpNextNumeral ⟨0, true, [['a', ' '], ['5']]⟩ = some (r, d2) ∧
      (r = true → ∃ f v, fragAt d2.str (d2.i - 1) = some f ∧
        getNumeral f = some v ∧ Numeral d2 = some v) ∧
      (r = false → d2.i = (⟨0, true, [['a', ' '], ['5']]⟩ : Dispenser).i ∧
        d2.str = (⟨0, true, [['a', ' '], ['5']]⟩ : Dispenser).str) :=
  c3_jumpNextNumeral ⟨0, true, [['a', ' '], ['5']]⟩ (by decide)

/-- C4: the numeral-binding step of the extractor.  Either the queue is left
unchanged together with the statement (no numeral found before position 5,
or empty queue), or the oldest entry (the queue head) is popped and its
field is bound to the parsed value of a numeral fragment lying within the
first 5 lexical positions of the sentence (its 0-based word index k
satisfies k < 5; the code in fact enforces Position < 5, so k < 4). -/
theorem c4_bindNumeralStep (sentence : Str) (q : List headerType)
    (st : Statement) (q2 : List headerType) (st2 : Statement)
    (evs : List ExtractEvent)
    (h : bindNumeralStep sentence q st = some (q2, st2, evs)) :
    (q2 = q → st2 = st ∧ evs = []) ∧
    (q2 ≠ q → ∃ hd rest v k f, q = hd :: rest ∧ q2 = rest ∧
      0 ≤ k ∧ k < 5 ∧
      fragAt (NewDispenserFromSentence sentence).str k = some f ∧
      getNumeral f = some v ∧
      st2 = applyBind hd v st ∧ evs = [ExtractEvent.bound hd v]) := by
  cases q with
  | nil =>
    rw [bindNumeralStep] at h
    simp only [Option.some.injEq, Prod.mk.injEq] at h
    obtain ⟨hq, hst, hev⟩ := h
    subst hq; subst hst; subst hev
    exact ⟨fun _ => ⟨rfl, rfl⟩, fun hq => absurd rfl hq⟩
  | cons hd rest =>
    rw [bindNumeralStep] at h
    cases hns : NextSentence (NewDispenserFromSentence sentence) with
    | none => rw [hns, Option.none_bind] at h; cases h
    | some r1 =>
      rw [hns, Option.some_bind] at h
      cases hjj : JumpNextNumeral r1.2 with
      | none => rw [hjj, Option.none_bind] at h; cases h
      | some r2 =>
        obtain ⟨bf, dj⟩ := r2
        rw [hjj, Option.some_bind] at h
        dsimp only at h
        by_cases hcond : bf = true ∧ Position dj < 5
        · rw [if_pos hcond] at h
          obtain ⟨hbf, hpos⟩ := hcond
          subst hbf
          cases hnum : Numeral dj with
          | none => rw [hnum, Option.none_bind] at h; cases h
          | some v =>
            rw [hnum, Option.some_bind] at h
            simp only [Option.some.injEq, Prod.mk.injEq] at h
            obtain ⟨hq, hst, hev⟩ := h
            subst hq; subst hst; subst hev
            constructor
            · intro hq2
              exfalso
              have := congrArg List.length hq2
              simp at this
            · intro _
              obtain ⟨hstr, hi1, _, _, f, v2, hf, hgv, hn2⟩ :=
                jumpNextNumeral_true hjj
              rw [hnum] at hn2
              injection hn2 with hv2
              subst hv2
              rw [Position] at hpos
              refine ⟨hd, rest, v, dj.i - 1, f, rfl, rfl, by omega, by omega,
                ?_, hgv, rfl, rfl⟩
              rw [← nextSentence_str hns, ← hstr]
              exact hf
        · rw [if_neg hcond] at h
          simp only [Option.some.injEq, Prod.mk.injEq] at h
          obtain ⟨hq, hst, hev⟩ := h
          subst hq; subst hst; subst hev
          exact ⟨fun _ => ⟨rfl, rfl⟩, fun hq => absurd rfl hq⟩

unseal Rat.mul Rat.add Rat.sub Rat.inv in
/-- C4 witness: sentence "5.00" with queue [headerFranked] binds the franked
field to 5 and pops the queue. -/
theorem c4_bindNumeralStep_witness :
    (([] : List headerType) = [headerFranked] →
      applyBind headerFranked 5 zeroStatement = zeroStatement ∧
        [ExtractEvent.bound headerFranked 5] = []) ∧
    (([] : List headerType) ≠ [headerFranked] →
      ∃ hd rest v k f, [headerFranked] = hd :: rest ∧
        ([] : List headerType) = rest ∧ 0 ≤ k ∧ k < 5 ∧
        fragAt (NewDispenserFromSentence "5.00".toList).str k = some f ∧
        getNumeral f = some v ∧
        applyBind headerFranked 5 zeroStatement = applyBind hd v zeroStatement ∧
        [ExtractEvent.bound headerFranked 5] = [ExtractEvent.bound hd v]) :=
  c4_bindNumeralStep "5.00".toList [headerFranked] zeroStatement []
    (applyBind headerFranked 5 zeroStatement)
    [ExtractEvent.bound headerFranked 5] (by decide)

/-- C5: peek-N-sentences is non-mutating and idempotent.  On every
well-formed state it succeeds and returns the input dispenser itself as the
final state, so the cursor position and the open/closed flag are exactly
their prior values and any repetition of the call returns the same list. -/
theorem c5_dumpNSentences (d : Dispenser) (n : Nat) (h : WF d) :
    ∃ out, DumpNSentences n d = some (out, d) :=
  dumpNSentences_self d n h

/-- C5 witness: peeking 5 sentences of "a b" from its start. -/
theorem c5_dumpNSentences_witness :
    ∃ out, DumpNSentences 5 ⟨0, true, [['a', ' '], ['b']]⟩ =
      some (out, ⟨0, true, [['a', ' '], ['b']]⟩) :=
  c5_dumpNSentences ⟨0, true, [['a', ' '], ['b']]⟩ 5 (by decide)

/-- C6: with a sentence open, consume-sentence returns exactly the
concatenation of the fragments of the sentence from the cursor through its
last fragment (the maximal trailing-space run plus its terminator, per the
space-suffix convention), advances the cursor one past that sentence, and
closes the sentence; with no sentence open it returns the empty string and
leaves the state unchanged. -/
theorem c6_dumpSentence (d : Dispenser) (h : WF d) :
    (d.continueNextSentence = true →
      DumpSentence d =
        some ((sentenceTake (d.str.drop d.i.toNat)).flatten,
          ⟨d.i + ((sentenceTake (d.str.drop d.i.toNat)).length : Int), false,
            d.str⟩)) ∧
    (d.continueNextSentence = false → DumpSentence d = some ([], d)) :=
  ⟨fun hc => dumpSentence_open d h hc, fun hc => dumpSentence_closed hc⟩

/-- C6 witness: consuming the first sentence of "a b" / "c". -/
theorem c6_dumpSentence_witness :
    DumpSentence ⟨0, true, [['a', ' '], ['b'], ['c']]⟩ =
      some (['a', ' ', 'b'], ⟨2, false, [['a', ' '], ['b'], ['c']]⟩) := by
  have h := (c6_dumpSentence ⟨0, true, [['a', ' '], ['b'], ['c']]⟩
    (by decide)).1 rfl
  exact h.trans (by decide)

/-- C7, counterexample: the very first decoded string of a page can be a
single space; the fragment list is still empty, so the space is appended to
the list as a new fragment instead of being merged into a previous one. -/
theorem c7_counterexample :
    writeFragment [] [' '] = [[' ']] :=
  rfl

/-- C7, amended: a decoded single space is merged into the previous
fragment as a trailing space when the fragment list is non-empty; when the
list is empty the space is appended as a new fragment, and every other
decoded string is appended as a new fragment. -/
theorem c7_writeFragment (text : List Str) (s : Str) :
    (s = [' '] → text ≠ [] → ∃ init w, text = init ++ [w] ∧
      writeFragment text s = init ++ [w ++ [' ']]) ∧
    (s ≠ [' '] ∨ text = [] → writeFragment text s = text ++ [s]) := by
  constructor
  · intro hs hne
    refine ⟨text.dropLast, text.getLast hne,
      (List.dropLast_append_getLast hne).symm, ?_⟩
    rw [writeFragment, if_pos ⟨hs, hne⟩]
    conv_lhs => rw [← List.dropLast_append_getLast hne]
    rw [appendSpaceLast_append]
  · intro hor
    rw [writeFragment]
    rcases hor with hs | ht
    · rw [if_neg (by intro hcon; exact hs hcon.1)]
    · rw [if_neg (by intro hcon; exact hcon.2 ht)]

/-- C7 witness: a space decoded after the fragment "hi" is merged into it. -/
theorem c7_writeFragment_witness :
    ∃ init w, [['h', 'i']] = init ++ [w] ∧
      writeFragment [['h', 'i']] [' '] = init ++ [w ++ [' ']] :=
  (c7_writeFragment [['h', 'i']] [' ']).1 rfl (by decide)

/-- C8: advance-to-next-word fails, without moving the cursor or touching
the flag, exactly when the cursor is at the end of the fragment sequence,
the sentence is closed, or the current fragment parses as a numeral; on
success it advances the cursor by one and closes the sentence exactly when
the consumed fragment lacks a trailing space or is the last fragment of the
whole sequence. -/
theorem c8_nextWord (d : Dispenser) :
    ((strLen d ≤ d.i ∨ d.continueNextSentence = false) →
      NextWord d = some (false, d)) ∧
    (∀ f, fragAt d.str d.i = some f → d.continueNextSentence = true →
      (getNumeral f).isSome → NextWord d = some (false, d)) ∧
    (∀ f c, fragAt d.str d.i = some f → d.continueNextSentence = true →
      getNumeral f = none → lastChar f = some c →
      NextWord d = some (true,
        ⟨d.i + 1, if c ≠ ' ' ∨ d.i + 1 = strLen d then false else true,
          d.str⟩)) := by
  refine ⟨?_, ?_, ?_⟩
  · intro hor
    by_cases hlen : strLen d ≤ d.i
    · rw [NextWord, if_pos hlen]
    · have hcont : d.continueNextSentence = false := hor.resolve_left hlen
      rw [NextWord, if_neg hlen, if_pos hcont]
  · intro f hf hcont hnum
    obtain ⟨hb0, hb1, _⟩ := fragAt_bounds hf
    rw [NextWord, if_neg (by rw [strLen_eq]; omega),
      if_neg (by rw [hcont]; simp), hf, Option.some_bind, if_pos hnum]
  · intro f c hf hcont hnum hlast
    obtain ⟨hb0, hb1, _⟩ := fragAt_bounds hf
    rw [NextWord, if_neg (by rw [strLen_eq]; omega),
      if_neg (by rw [hcont]; simp), hf, Option.some_bind,
      if_neg (by rw [hnum]; simp), hlast, Option.some_bind, hcont]

/-- C8 witness: consuming the word "a " of "a b" advances the cursor by one
and keeps the sentence open (trailing space, not the last fragment). -/
theorem c8_nextWord_witness :
    NextWord ⟨0, true, [['a', ' '], ['b']]⟩ =
      some (true, ⟨1, true, [['a', ' '], ['b']]⟩) := by
  have h := (c8_nextWord ⟨0, true, [['a', ' '], ['b']]⟩).2.2 ['a', ' '] ' '
    (by decide) rfl (by decide) rfl
  exact h.trans (by decide)

/-- C9, counterexample: at cursor 1 over the one-fragment sequence ["a"]
with N = 0 the bounds guard passes (0 <= 1-0-1 < 1), yet the operation reads
index 1-2 = -1 and panics (modelled none) instead of returning a fragment. -/
theorem c9_counterexample :
    ¬((1 : Int) - 0 - 1 < 0 ∨ strLen ⟨1, false, [['a']]⟩ ≤ (1 : Int) - 0 - 1) ∧
      LastNWords ⟨1, false, [['a']]⟩ 0 = none := by
  decide

/-- C9, amended: whenever the bounds guard passes and the index two behind
the cursor is itself in range, last-N-words returns the single fragment two
positions behind the cursor, independent of the value of N (the conclusion
does not mention N). -/
theorem c9_lastNWords (d : Dispenser) (n : Int)
    (hg1 : ¬ d.i - n - 1 < 0) (hg2 : ¬ strLen d ≤ d.i - n - 1)
    (h2a : 0 ≤ d.i - 2) (h2b : d.i - 2 < strLen d) :
    ∃ f, LastNWords d n = some f ∧ fragAt d.str (d.i - 2) = some f := by
  obtain ⟨f, hf, _⟩ := @fragAt_some_of d.str (d.i - 2) h2a
    (by rw [strLen_eq] at h2b; exact h2b)
  refine ⟨f, ?_, hf⟩
  rw [LastNWords, if_neg (by push_neg; exact ⟨by omega, by omega⟩), hf]

/-- C9 witness: cursor 3 over "a b c", N = 1. -/
theorem c9_lastNWords_witness :
    ∃ f, LastNWords ⟨3, false, [['a', ' '], ['b', ' '], ['c']]⟩ 1 = some f ∧
      fragAt [['a', ' '], ['b', ' '], ['c']] ((3 : Int) - 2) = some f :=
  c9_lastNWords ⟨3, false, [['a', ' '], ['b', ' '], ['c']]⟩ 1 (by decide)
    (by decide) (by decide) (by decide)

/-- C10, counterexample: from a dispenser freshly created over the
non-empty all-non-empty fragment sequence ["a ", "b"], the reachable call
sequence NextSentence; NextWord; LastSentence indexes d.str[2], one past the
end, and panics (modelled none) — so not every public operation performs
only in-bounds indexing even over well-formed fragment sequences. -/
theorem c10_counterexample :
    ((NextSentence (NewDispenser [['a', ' '], ['b']])).bind fun r1 =>
      (NextWord r1.2).bind fun r2 => LastSentence r2.2) = none := by
  decide

/-- C10, amended: on every well-formed state (cursor between 0 and the
length, non-empty sequence of non-empty fragments) — in particular on a
freshly created dispenser and on everything these operations themselves
produce — every public operation except LastSentence performs only
in-bounds indexing (never panics, modelled isSome); in particular the
last-byte trailing-space test never reads out of range.  An empty-string
fragment violates this: opening and consuming a sentence over ["a ", ""]
panics on the empty fragment. -/
theorem c10_safety (d : Dispenser) (n : Nat) (h : WF d) :
    (NextWord d).isSome ∧ (NextNumeral d).isSome ∧ (NextSentence d).isSome ∧
    (StartOfSentence d).isSome ∧ (DumpSentence d).isSome ∧
    (DumpNSentences n d).isSome ∧ (JumpNextNumeral d).isSome ∧
    (Word d).isSome ∧ (Numeral d).isSome ∧
    ((NextSentence (NewDispenser [['a', ' '], []])).bind fun r1 =>
      DumpSentence r1.2) = none := by
  refine ⟨?_, ?_, ?_, ?_, ?_, ?_, jumpNextNumeral_some d h, word_some d h,
    numeral_some d h, by decide⟩
  · obtain ⟨b, d2, he, _, _⟩ := nextWord_some d h
    rw [he]; rfl
  · obtain ⟨b, d2, he, _, _⟩ := nextNumeral_some d h
    rw [he]; rfl
  · obtain ⟨b, d2, he, _, _⟩ := nextSentence_some d h
    rw [he]; rfl
  · obtain ⟨d2, he, _⟩ := startOfSentence_some d h
    rw [he]; rfl
  · obtain ⟨s, d2, he, _⟩ := dumpSentence_some d h
    rw [he]; rfl
  · obtain ⟨out, he⟩ := dumpNSentences_self d n h
    rw [he]; rfl

/-- C10 witness: the safety conjunction on a small concrete state. -/
theorem c10_safety_witness :
    (NextWord ⟨0, true, [['a', ' '], ['b']]⟩).isSome ∧
    (NextNumeral ⟨0, true, [['a', ' '], ['b']]⟩).isSome ∧
    (NextSentence ⟨0, true, [['a', ' '], ['b']]⟩).isSome ∧
    (StartOfSentence ⟨0, true, [['a', ' '], ['b']]⟩).isSome ∧
    (DumpSentence ⟨0, true, [['a', ' '], ['b']]⟩).isSome ∧
    (DumpNSentences 3 ⟨0, true, [['a', ' '], ['b']]⟩).isSome ∧
    (JumpNextNumeral ⟨0, true, [['a', ' '], ['b']]⟩).isSome ∧
    (Word ⟨0, true, [['a', ' '], ['b']]⟩).isSome ∧
    (Numeral ⟨0, true, [['a', ' '], ['b']]⟩).isSome ∧
    ((NextSentence (NewDispenser [['a', ' '], []])).bind fun r1 =>
      DumpSentence r1.2) = none :=
  c10_safety ⟨0, true, [['a', ' '], ['b']]⟩ 3 (by decide)

end GoTax
